import Mathlib

/-!
Verification of the NVBit instrumentation core (`src/core/nvbit.h`,
`src/core/macros.h`, `src/core/nvbit_tool.h`).

The repository exposes the engine only through declarations in `nvbit.h`;
the decoder, CFG builder, injection ledger, materializer and variant switch
are therefore modelled from the specification (each such definition's doc
comment starts with `Modelled from the spec:`).  The `_assert` macros are
real code in `macros.h` and are embedded directly.
-/

namespace Nvbit

/-- Memory-operation classification, from `Instr::memOpType` in nvbit.h. -/
inductive MemOpType
  | NONE
  | LOCAL
  | GENERIC
  | GLOBAL
  | SHARED
  | CONSTANT
  deriving DecidableEq, Repr

/-- Operand kind, from `Instr::operandType` in nvbit.h. -/
inductive OperandType
  | IMM
  | REG
  | PRED
  | CBANK
  | SREG
  | BREG
  | MREF
  deriving DecidableEq, Repr

/-- One operand, from `Instr::operand_t` in nvbit.h.  The two `double`
payload slots are abstracted as integers: no claim depends on
floating-point semantics of the payload, only on its identity. -/
structure Operand where
  type : OperandType
  is_neg : Bool
  is_abs : Bool
  value0 : Int
  value1 : Int
  deriving DecidableEq, Repr

/-- Control-transfer classification of an instruction.  `direct` carries a
statically known byte-offset target; `indirect` is the jmx/brx class whose
target depends on register values known only at runtime (see the
`is_degenerate` comment in nvbit.h); `other` is any non-transfer
instruction. -/
inductive CtrlKind
  | other
  | direct (target : Nat)
  | indirect
  deriving DecidableEq, Repr

/-- Decoded instruction, from class `Instr` in nvbit.h: byte offset within
the function (`getOffset`), sequence index (`getIdx`), opcode string,
predicate info (`hasPred`/`getPredNum`/`isPredNeg`), memory-op
classification and flags, access size (`getSize`), operands, plus the
control-transfer classification the CFG builder consumes. -/
structure Instr where
  offset : Nat
  idx : Nat
  opcode : String
  hasPred : Bool
  predNum : Int
  isPredNeg : Bool
  memOp : MemOpType
  isLoad : Bool
  isStore : Bool
  isExtended : Bool
  size : Nat
  operands : List Operand
  ctrl : CtrlKind
  deriving DecidableEq, Repr

/-- `Instr::RZ` from nvbit.h. -/
def Instr.RZ : Int := 255

/-- `Instr::PT` from nvbit.h. -/
def Instr.PT : Int := 7

/-- Error taxonomy of the core (spec section 7). -/
inductive NvbitError
  | DecodeError
  | UsageError
  | MaterializationError
  | RegistryError
  deriving DecidableEq, Repr

/-- One raw (encoded) instruction as the decoder sees it: a recognized
flag plus the fields a successful decode exposes.  The proprietary bit
layout is abstracted; what matters to the claims is that decoding is a
pure function of this input. -/
structure RawInstr where
  recognized : Bool
  opcode : String
  hasPred : Bool
  predNum : Int
  isPredNeg : Bool
  memOp : MemOpType
  isLoad : Bool
  isStore : Bool
  isExtended : Bool
  size : Nat
  operands : List Operand
  ctrl : CtrlKind
  deriving DecidableEq, Repr

/-- Build the decoded instruction for one recognized raw encoding at the
given byte offset and sequence index. -/
def decodeOne (off idx : Nat) (r : RawInstr) : Instr :=
  { offset := off
    idx := idx
    opcode := r.opcode
    hasPred := r.hasPred
    predNum := r.predNum
    isPredNeg := r.isPredNeg
    memOp := r.memOp
    isLoad := r.isLoad
    isStore := r.isStore
    isExtended := r.isExtended
    size := r.size
    operands := r.operands
    ctrl := r.ctrl }

/-- Modelled from the spec: the Function Decoder (spec section 4.1), whose
implementation is not under src/ (nvbit.h only declares
`nvbit_get_instrs`).  Walks the raw encoding assigning strictly increasing
byte offsets (uniform encoding width `w`) and sequence indices; an
unrecognized encoding fails with `DecodeError`, aborting the whole decode
(the tool cannot operate on a partially decoded function). -/
def decodeGo (w off idx : Nat) : List RawInstr → Except NvbitError (List Instr)
  | [] => .ok []
  | r :: rest =>
    if r.recognized then
      match decodeGo w (off + w) (idx + 1) rest with
      | .ok is => .ok (decodeOne off idx r :: is)
      | .error e => .error e
    else .error .DecodeError

/-- Modelled from the spec: full decode of a kernel's raw code, offsets
starting at byte 0. -/
def decode (w : Nat) (raws : List RawInstr) : Except NvbitError (List Instr) :=
  decodeGo w 0 0 raws

/-- Sample recognized raw instruction used by concrete witnesses. -/
def rawAdd : RawInstr :=
  { recognized := true
    opcode := "IADD"
    hasPred := false
    predNum := 0
    isPredNeg := false
    memOp := .NONE
    isLoad := false
    isStore := false
    isExtended := false
    size := 0
    operands := []
    ctrl := .other }

/-- Sample recognized raw exit instruction used by concrete witnesses. -/
def rawExit : RawInstr :=
  { rawAdd with opcode := "EXIT" }

/-- Sample two-instruction raw kernel used by concrete witnesses. -/
def sampleRaws : List RawInstr := [rawAdd, rawExit]

/-- Sample decoded kernel (width 16) used by concrete witnesses. -/
def sampleInstrs : List Instr := [decodeOne 0 0 rawAdd, decodeOne 16 1 rawExit]

/-- Control flow graph struct, from `CFG_t` in nvbit.h: a degeneracy flag
plus a vector of basic blocks, each an ordered vector of instructions. -/
structure CFG where
  is_degenerate : Bool
  bbs : List (List Instr)
  deriving DecidableEq, Repr

/-- True when the instruction transfers control (direct or indirect
branch). -/
def isCtrl (i : Instr) : Bool :=
  match i.ctrl with
  | .other => false
  | _ => true

/-- Byte offsets that are targets of some direct branch in the sequence. -/
def branchTargets (instrs : List Instr) : List Nat :=
  instrs.filterMap fun i =>
    match i.ctrl with
    | .direct t => some t
    | _ => none

/-- Modelled from the spec: block-boundary test of the CFG Builder (spec
section 4.2) — a new basic block starts after any control-transfer
instruction and before any instruction that is a known branch target. -/
def startsBlock (ts : List Nat) (prev i : Instr) : Bool :=
  isCtrl prev || ts.contains i.offset

/-- Modelled from the spec: the CFG Builder's scan (spec section 4.2),
whose implementation is not under src/.  `cur` holds the current block in
reverse; a boundary closes it and opens a fresh one. -/
def groupGo (ts : List Nat) (prev : Instr) (cur : List Instr) :
    List Instr → List (List Instr)
  | [] => [cur.reverse]
  | i :: rest =>
    if startsBlock ts prev i then cur.reverse :: groupGo ts i [i] rest
    else groupGo ts i (i :: cur) rest

/-- Modelled from the spec: partition of the decoded sequence into basic
blocks. -/
def buildBlocks (instrs : List Instr) : List (List Instr) :=
  match instrs with
  | [] => []
  | i :: rest => groupGo (branchTargets instrs) i [i] rest

/-- Modelled from the spec: the CFG Builder (spec section 4.2, `CFG_t` and
`nvbit_get_CFG` in nvbit.h).  The graph is degenerate exactly when the
sequence contains a jmx/brx-class (register-indexed) branch. -/
def buildCFG (instrs : List Instr) : CFG :=
  { is_degenerate :=
      instrs.any fun i =>
        match i.ctrl with
        | .indirect => true
        | _ => false
    bbs := buildBlocks instrs }

theorem groupGo_flatten (ts : List Nat) :
    ∀ (rest : List Instr) (prev : Instr) (cur : List Instr),
      (groupGo ts prev cur rest).flatten = cur.reverse ++ rest := by
  intro rest
  induction rest with
  | nil => intro prev cur; simp [groupGo]
  | cons i rest ih =>
    intro prev cur
    by_cases h : startsBlock ts prev i = true
    · simp [groupGo, h, ih]
    · simp only [Bool.not_eq_true] at h
      simp [groupGo, h, ih]

theorem buildBlocks_flatten (instrs : List Instr) :
    (buildBlocks instrs).flatten = instrs := by
  cases instrs with
  | nil => simp [buildBlocks]
  | cons i rest => simp [buildBlocks, groupGo_flatten]

theorem decodeGo_offsets (w : Nat) (hw : 0 < w) :
    ∀ (raws : List RawInstr) (off idx : Nat) (instrs : List Instr),
      decodeGo w off idx raws = .ok instrs →
      instrs.Pairwise (fun a b => a.offset < b.offset) ∧
        ∀ i ∈ instrs, off ≤ i.offset := by
  intro raws
  induction raws with
  | nil =>
    intro off idx instrs h
    simp only [decodeGo] at h
    cases h
    simp
  | cons r rest ih =>
    intro off idx instrs h
    simp only [decodeGo] at h
    by_cases hr : r.recognized = true
    · rw [if_pos hr] at h
      cases hrec : decodeGo w (off + w) (idx + 1) rest with
      | ok is =>
        rw [hrec] at h
        cases h
        obtain ⟨hpw, hlb⟩ := ih (off + w) (idx + 1) is hrec
        refine ⟨List.pairwise_cons.mpr ⟨?_, hpw⟩, ?_⟩
        · intro b hb
          have := hlb b hb
          simp only [decodeOne]
          omega
        · intro i hi
          rcases List.mem_cons.mp hi with h1 | h2
          · subst h1; simp [decodeOne]
          · have := hlb i h2; omega
      | error e => rw [hrec] at h; cases h
    · simp only [Bool.not_eq_true] at hr
      rw [if_neg (by simp [hr])] at h
      cases h

/-- C1: for every successfully decoded kernel, the instruction sequence
returned by the inspection API and the CFG agree: the blocks' total
instruction count equals the sequence length, every instruction belongs to
exactly one block (equal multiplicity across blocks and sequence), and
byte offsets are strictly increasing across the sequence. -/
theorem instrs_cfg_agree (w : Nat) (raws : List RawInstr) (instrs : List Instr)
    (hw : 0 < w) (hdec : decode w raws = .ok instrs) :
    ((buildCFG instrs).bbs.map List.length).sum = instrs.length ∧
      (∀ i : Instr,
        ((buildCFG instrs).bbs.map fun b => b.count i).sum = instrs.count i) ∧
      instrs.Pairwise (fun a b => a.offset < b.offset) := by
  have hflat : (buildCFG instrs).bbs.flatten = instrs := by
    simpa [buildCFG] using buildBlocks_flatten instrs
  refine ⟨?_, ?_, ?_⟩
  · calc ((buildCFG instrs).bbs.map List.length).sum
        = (buildCFG instrs).bbs.flatten.length := (List.length_flatten _).symm
      _ = instrs.length := by rw [hflat]
  · intro i
    calc ((buildCFG instrs).bbs.map fun b => b.count i).sum
        = (buildCFG instrs).bbs.flatten.count i := by
          rw [List.count_flatten]
      _ = instrs.count i := by rw [hflat]
  · exact (decodeGo_offsets w hw raws 0 0 instrs hdec).1

/-- Insertion point, from `ipoint_t` in nvbit.h. -/
inductive IPoint
  | IPOINT_BEFORE
  | IPOINT_AFTER
  deriving DecidableEq, Repr

/-- One argument binding of an injected call, covering the
`nvbit_add_call_arg_*` family declared in nvbit.h (spec section 4.3). -/
inductive ArgBinding
  | predVal
  | predReg
  | constVal32 (v : Nat)
  | constVal64 (v : Nat)
  | regVal (reg_num : Int)
  | launchVal32 (off : Int)
  | launchVal64 (off : Int)
  | cbankVal (bankid bankoffset : Int)
  deriving DecidableEq, Repr

/-- One call site recorded by the ledger: target device function name and
its ordered argument-binding list (spec section 3, InjectionRequest). -/
structure InjectionRequest where
  dev_func_name : String
  args : List ArgBinding
  deriving DecidableEq, Repr

/-- Modelled from the spec: the Injection Ledger (spec section 4.3), whose
implementation is not under src/.  `calls` lists every recorded call in
overall insertion order, keyed by (instruction index, point); `removed`
lists instructions marked elided; `openKey` is the key of the most
recently started call (the builder's open call); `frozen` is set once the
kernel is materialized, after which every mutation is a UsageError. -/
structure Ledger where
  calls : List (Nat × IPoint × InjectionRequest)
  removed : List Nat
  openKey : Option (Nat × IPoint)
  frozen : Bool
  deriving DecidableEq, Repr

/-- The empty ledger: no calls recorded, nothing removed, no open call. -/
def emptyLedger : Ledger :=
  { calls := [], removed := [], openKey := none, frozen := false }

/-- Modelled from the spec: `nvbit_insert_call` (nvbit.h) — starts a new
pending call appended to the per-(instr, point) ordered list and makes it
the open call.  On a frozen ledger it is a UsageError and the ledger is
unchanged. -/
def nvbit_insert_call (l : Ledger) (idx : Nat) (dev_func_name : String)
    (point : IPoint) : Ledger × Option NvbitError :=
  if l.frozen then (l, some .UsageError)
  else
    ({ l with
        calls := l.calls ++ [(idx, point, ⟨dev_func_name, []⟩)]
        openKey := some (idx, point) }, none)

/-- Append one binding to the last recorded call. -/
def appendArgLast (b : ArgBinding) :
    List (Nat × IPoint × InjectionRequest) →
      List (Nat × IPoint × InjectionRequest)
  | [] => []
  | [c] => [(c.1, c.2.1, { c.2.2 with args := c.2.2.args ++ [b] })]
  | c :: rest => c :: appendArgLast b rest

/-- Modelled from the spec: common core of the `nvbit_add_call_arg_*`
family — appends one binding to the most recently started call.  It is a
UsageError (ledger unchanged) if the ledger is frozen, if no call is
open, or if the open call does not belong to this instruction. -/
def addCallArg (l : Ledger) (idx : Nat) (b : ArgBinding) :
    Ledger × Option NvbitError :=
  if l.frozen then (l, some .UsageError)
  else
    match l.openKey with
    | none => (l, some .UsageError)
    | some k =>
      if k.1 = idx then ({ l with calls := appendArgLast b l.calls }, none)
      else (l, some .UsageError)

/-- `nvbit_add_call_arg_pred_val` from nvbit.h. -/
def nvbit_add_call_arg_pred_val (l : Ledger) (idx : Nat) :
    Ledger × Option NvbitError :=
  addCallArg l idx .predVal

/-- `nvbit_add_call_arg_pred_reg` from nvbit.h. -/
def nvbit_add_call_arg_pred_reg (l : Ledger) (idx : Nat) :
    Ledger × Option NvbitError :=
  addCallArg l idx .predReg

/-- `nvbit_add_call_arg_const_val32` from nvbit.h; the value is a uint32. -/
def nvbit_add_call_arg_const_val32 (l : Ledger) (idx : Nat) (val : Nat) :
    Ledger × Option NvbitError :=
  addCallArg l idx (.constVal32 (val % 2 ^ 32))

/-- `nvbit_add_call_arg_const_val64` from nvbit.h; the value is a uint64. -/
def nvbit_add_call_arg_const_val64 (l : Ledger) (idx : Nat) (val : Nat) :
    Ledger × Option NvbitError :=
  addCallArg l idx (.constVal64 (val % 2 ^ 64))

/-- `nvbit_add_call_arg_reg_val` from nvbit.h. -/
def nvbit_add_call_arg_reg_val (l : Ledger) (idx : Nat) (reg_num : Int) :
    Ledger × Option NvbitError :=
  addCallArg l idx (.regVal reg_num)

/-- `nvbit_add_call_arg_launch_val32` from nvbit.h. -/
def nvbit_add_call_arg_launch_val32 (l : Ledger) (idx : Nat) (off : Int) :
    Ledger × Option NvbitError :=
  addCallArg l idx (.launchVal32 off)

/-- `nvbit_add_call_arg_launch_val64` from nvbit.h. -/
def nvbit_add_call_arg_launch_val64 (l : Ledger) (idx : Nat) (off : Int) :
    Ledger × Option NvbitError :=
  addCallArg l idx (.launchVal64 off)

/-- `nvbit_add_call_arg_cbank_val` from nvbit.h. -/
def nvbit_add_call_arg_cbank_val (l : Ledger) (idx : Nat)
    (bankid bankoffset : Int) : Ledger × Option NvbitError :=
  addCallArg l idx (.cbankVal bankid bankoffset)

/-- Modelled from the spec: `nvbit_remove_orig` (nvbit.h) — marks the
instruction as elided in the materialized output; it does not delete it
from the instruction sequence.  UsageError on a frozen ledger. -/
def nvbit_remove_orig (l : Ledger) (idx : Nat) : Ledger × Option NvbitError :=
  if l.frozen then (l, some .UsageError)
  else ({ l with removed := idx :: l.removed }, none)

/-- The calls recorded for one (instruction, point) pair, in insertion
order (the ledger's overall order restricted to that key). -/
def callsAt (l : Ledger) (idx : Nat) (p : IPoint) : List InjectionRequest :=
  (l.calls.filter fun c => decide (c.1 = idx ∧ c.2.1 = p)).map fun c => c.2.2

/-- One element of the materialized instruction stream: argument
marshalling, the call transfer, state restore, or an original
instruction (spec section 4.4). -/
inductive SynthInstr
  | marshal (b : ArgBinding)
  | callTo (dev_func_name : String)
  | restore
  | orig (i : Instr)
  deriving DecidableEq, Repr

/-- Modelled from the spec: expansion of one injected call site —
argument-marshalling instructions in parameter order, then the call
transfer, then the restore-state step that makes the injected code
invisible to the original program (spec section 4.4). -/
def expandCall (r : InjectionRequest) : List SynthInstr :=
  (r.args.map .marshal) ++ [.callTo r.dev_func_name, .restore]

/-- Expansion of a list of injected calls, preserving their order. -/
def expandAll (rs : List InjectionRequest) : List SynthInstr :=
  (rs.map expandCall).flatten

/-- Modelled from the spec: the Materializer's per-instruction emission
(spec section 4.4) — injected before-calls in insertion order, the
original instruction unless marked removed, injected after-calls in
insertion order. -/
def materializeInstr (l : Ledger) (i : Instr) : List SynthInstr :=
  expandAll (callsAt l i.idx .IPOINT_BEFORE) ++
    (if l.removed.contains i.idx then [] else [.orig i]) ++
    expandAll (callsAt l i.idx .IPOINT_AFTER)

/-- Modelled from the spec: flat expansion of the whole instruction
sequence against the ledger, in original order. -/
def materializeStream (l : Ledger) (instrs : List Instr) : List SynthInstr :=
  (instrs.map (materializeInstr l)).flatten

/-- Modelled from the spec: first pass of branch re-resolution (spec
section 9) — the old-offset-to-new-offset map.  `pos` counts stream
elements already emitted; every stream element occupies the uniform
encoding width `w`, so an original instruction's group starting at stream
position `pos` lands at new byte offset `pos * w`. -/
def offsetMapGo (w : Nat) (l : Ledger) (pos : Nat) :
    List Instr → List (Nat × Nat)
  | [] => []
  | i :: rest =>
    (i.offset, pos * w) ::
      offsetMapGo w l (pos + (materializeInstr l i).length) rest

/-- The old-to-new offset map for a whole kernel. -/
def offsetMap (w : Nat) (l : Ledger) (instrs : List Instr) :
    List (Nat × Nat) :=
  offsetMapGo w l 0 instrs

/-- Look up a branch target in the offset map; targets outside the map
(branches leaving the function) are left unchanged. -/
def lookupNew (m : List (Nat × Nat)) (t : Nat) : Nat :=
  match m.find? fun p => decide (p.1 = t) with
  | some p => p.2
  | none => t

/-- Rewrite the direct-branch target of one instruction through the
offset map. -/
def rewriteInstr (m : List (Nat × Nat)) (i : Instr) : Instr :=
  match i.ctrl with
  | .direct t => { i with ctrl := .direct (lookupNew m t) }
  | _ => i

/-- Modelled from the spec: second pass of branch re-resolution — rewrite
every original instruction's branch target through the map; synthetic
instructions carry no intra-function targets. -/
def rewriteStream (m : List (Nat × Nat)) : List SynthInstr → List SynthInstr :=
  List.map fun si =>
    match si with
    | .orig i => .orig (rewriteInstr m i)
    | x => x

/-- Device generation limits consulted when validating argument bindings
(spec section 4.4 failure modes). -/
structure DeviceGen where
  numRegs : Int
  numCBanks : Int
  deriving DecidableEq, Repr

/-- A binding is valid for the device generation when any register or
constant bank it names exists on that generation. -/
def validBinding (g : DeviceGen) : ArgBinding → Bool
  | .regVal r => decide (0 ≤ r ∧ r < g.numRegs)
  | .cbankVal b _ => decide (0 ≤ b ∧ b < g.numCBanks)
  | _ => true

/-- All bindings of every recorded call are valid for the generation. -/
def ledgerBindingsValid (g : DeviceGen) (l : Ledger) : Bool :=
  l.calls.all fun c => c.2.2.args.all (validBinding g)

/-- The addressable offset range: offsets are `uint32` (nvbit.h,
`Instr::getOffset`). -/
def MAX_CODE_BYTES : Nat := 2 ^ 32

/-- Modelled from the spec: the Instrumentation Materializer (spec
section 4.4), whose implementation is not under src/.  Validates every
argument binding against the device generation, expands the stream, checks
the total code size against the addressable offset range, and re-resolves
branch targets; any failure is a MaterializationError and no stream is
produced. -/
def materialize (g : DeviceGen) (w : Nat) (instrs : List Instr) (l : Ledger) :
    Except NvbitError (List SynthInstr) :=
  if ledgerBindingsValid g l then
    if (materializeStream l instrs).length * w ≤ MAX_CODE_BYTES then
      .ok (rewriteStream (offsetMap w l instrs) (materializeStream l instrs))
    else .error .MaterializationError
  else .error .MaterializationError

/-- Modelled from the spec: a loaded kernel after successful decode (spec
section 3, Function): its decoded instruction sequence and CFG, its
Injection Ledger, the materialization result once attempted (`none` while
not yet materialized), the Variant Switch flag, and the launch-time
parameter buffer. -/
structure Kernel where
  instrs : List Instr
  cfg : CFG
  ledger : Ledger
  matResult : Option (Except NvbitError (List SynthInstr))
  useInstrumented : Bool
  launchBuf : List Nat

/-- Modelled from the spec: lazy, once-only materialization of a kernel
(spec section 4.4) — a no-op on an already-attempted kernel, otherwise it
records the materializer's result and freezes the ledger. -/
def materializeKernel (g : DeviceGen) (w : Nat) (k : Kernel) : Kernel :=
  match k.matResult with
  | some _ => k
  | none =>
    { k with
        matResult := some (materialize g w k.instrs k.ledger)
        ledger := { k.ledger with frozen := true } }

/-- Modelled from the spec: `nvbit_enable_instrumented` (nvbit.h) — sets
the per-kernel flag selecting which variant runs. -/
def nvbit_enable_instrumented (k : Kernel) (flag : Bool) : Kernel :=
  { k with useInstrumented := flag }

/-- Modelled from the spec: the instruction stream the Variant Switch
dispatches (spec section 4.5): the instrumented variant when the flag is
set and a materialized variant exists, otherwise the original code. -/
def activeStream (k : Kernel) : List SynthInstr :=
  if k.useInstrumented then
    match k.matResult with
    | some (.ok s) => s
    | _ => k.instrs.map .orig
  else k.instrs.map .orig

theorem materializeInstr_empty (i : Instr) :
    materializeInstr emptyLedger i = [.orig i] := by
  simp [materializeInstr, callsAt, emptyLedger, expandAll]

theorem materializeStream_empty (instrs : List Instr) :
    materializeStream emptyLedger instrs = instrs.map SynthInstr.orig := by
  induction instrs with
  | nil => rfl
  | cons i rest ih =>
    simp only [materializeStream, List.map_cons, List.flatten_cons,
      materializeInstr_empty] at *
    simp [ih]

theorem offsetMapGo_empty_id (w : Nat) :
    ∀ (raws : List RawInstr) (off idx pos : Nat) (instrs : List Instr),
      decodeGo w off idx raws = .ok instrs → off = pos * w →
      ∀ p ∈ offsetMapGo w emptyLedger pos instrs, p.1 = p.2 := by
  intro raws
  induction raws with
  | nil =>
    intro off idx pos instrs h hoff
    simp only [decodeGo] at h
    cases h
    simp [offsetMapGo]
  | cons r rest ih =>
    intro off idx pos instrs h hoff
    simp only [decodeGo] at h
    by_cases hr : r.recognized = true
    · rw [if_pos hr] at h
      cases hrec : decodeGo w (off + w) (idx + 1) rest with
      | ok is =>
        rw [hrec] at h
        cases h
        intro p hp
        simp only [offsetMapGo, materializeInstr_empty, List.length_cons,
          List.length_nil, List.mem_cons] at hp
        rcases hp with h1 | h2
        · subst h1
          simp [decodeOne, hoff]
        · exact ih (off + w) (idx + 1) (pos + 1) is hrec
            (by rw [Nat.succ_mul, ← hoff]) p (by simpa using h2)
      | error e => rw [hrec] at h; cases h
    · simp only [Bool.not_eq_true] at hr
      rw [if_neg (by simp [hr])] at h
      cases h

theorem lookupNew_id (m : List (Nat × Nat)) (t : Nat)
    (hm : ∀ p ∈ m, p.1 = p.2) : lookupNew m t = t := by
  unfold lookupNew
  cases hf : m.find? fun p => decide (p.1 = t) with
  | none => rfl
  | some p =>
    have h1 : p.1 = t := by simpa using List.find?_some hf
    have h2 : p ∈ m := List.mem_of_find?_eq_some hf
    rw [← h1, hm p h2]

theorem rewriteInstr_id (m : List (Nat × Nat)) (i : Instr)
    (hm : ∀ p ∈ m, p.1 = p.2) : rewriteInstr m i = i := by
  cases i with
  | mk off idx opc hp pn png mo ld st ext sz ops ctrl =>
    cases ctrl with
    | other => rfl
    | indirect => rfl
    | direct t => simp [rewriteInstr, lookupNew_id m t hm]

theorem rewriteStream_orig_id (m : List (Nat × Nat)) (instrs : List Instr)
    (hm : ∀ p ∈ m, p.1 = p.2) :
    rewriteStream m (instrs.map SynthInstr.orig) =
      instrs.map SynthInstr.orig := by
  induction instrs with
  | nil => rfl
  | cons i rest ih =>
    simp only [rewriteStream, List.map_cons] at *
    rw [rewriteInstr_id m i hm]
    exact congrArg _ ih

/-- C2: materializing a kernel whose Injection Ledger is empty is the
identity transform — the materializer succeeds and its output stream is
exactly the original instruction sequence, and the variant the kernel
thereafter dispatches (whatever the switch flag) is the original code. -/
theorem materialize_empty_identity (g : DeviceGen) (w : Nat)
    (raws : List RawInstr) (instrs : List Instr)
    (hdec : decode w raws = .ok instrs)
    (hsz : instrs.length * w ≤ MAX_CODE_BYTES) :
    materialize g w instrs emptyLedger = .ok (instrs.map SynthInstr.orig) ∧
      ∀ (c : CFG) (flag : Bool) (buf : List Nat),
        activeStream (nvbit_enable_instrumented
          (materializeKernel g w
            { instrs := instrs, cfg := c, ledger := emptyLedger,
              matResult := none, useInstrumented := false,
              launchBuf := buf }) flag) =
          instrs.map SynthInstr.orig := by
  have hvalid : ledgerBindingsValid g emptyLedger = true := by
    simp [ledgerBindingsValid, emptyLedger]
  have hmap : ∀ p ∈ offsetMap w emptyLedger instrs, p.1 = p.2 :=
    offsetMapGo_empty_id w raws 0 0 0 instrs hdec (by simp)
  have hlen : (materializeStream emptyLedger instrs).length * w ≤
      MAX_CODE_BYTES := by
    rw [materializeStream_empty]
    simpa using hsz
  have hmain : materialize g w instrs emptyLedger =
      .ok (instrs.map SynthInstr.orig) := by
    unfold materialize
    rw [hvalid, if_pos rfl, if_pos hlen, materializeStream_empty,
      rewriteStream_orig_id _ _ hmap]
  refine ⟨hmain, ?_⟩
  intro c flag buf
  simp only [materializeKernel, hmain, nvbit_enable_instrumented,
    activeStream]
  cases flag <;> simp

/-- Witness for `materialize_empty_identity` at a concrete kernel. -/
theorem materialize_empty_identity_witness :
    decode 16 [] = .ok ([] : List Instr) ∧
      materialize ⟨255, 18⟩ 16 [] emptyLedger =
        .ok (([] : List Instr).map SynthInstr.orig) := by
  exact ⟨rfl, (materialize_empty_identity ⟨255, 18⟩ 16 [] [] rfl
    (by simp [MAX_CODE_BYTES])).1⟩

/-- C4: materialization and variant selection are idempotent —
materializing twice equals materializing once, materializing an
already-materialized kernel is a no-op returning the cached variant, and
setting the instrumented flag twice with the same value equals setting it
once. -/
theorem materialize_enable_idempotent (g : DeviceGen) (w : Nat) (k : Kernel)
    (flag : Bool) :
    materializeKernel g w (materializeKernel g w k) =
        materializeKernel g w k ∧
      (∀ r, k.matResult = some r → materializeKernel g w k = k) ∧
      nvbit_enable_instrumented (nvbit_enable_instrumented k flag) flag =
        nvbit_enable_instrumented k flag := by
  refine ⟨?_, ?_, rfl⟩
  · cases hm : k.matResult with
    | some r => simp [materializeKernel, hm]
    | none => simp [materializeKernel, hm]
  · intro r hr
    simp [materializeKernel, hr]

/-- Witness for `materialize_enable_idempotent` at a concrete kernel. -/
theorem materialize_enable_idempotent_witness :
    (Kernel.mk [] ⟨false, []⟩ emptyLedger (some (.ok [])) false
        []).matResult = some (.ok []) ∧
      materializeKernel ⟨255, 18⟩ 16
          (Kernel.mk [] ⟨false, []⟩ emptyLedger (some (.ok [])) false []) =
        Kernel.mk [] ⟨false, []⟩ emptyLedger (some (.ok [])) false [] := by
  exact ⟨rfl,
    (materialize_enable_idempotent ⟨255, 18⟩ 16
      (Kernel.mk [] ⟨false, []⟩ emptyLedger (some (.ok [])) false [])
      false).2.1 (.ok []) rfl⟩

/-- C5: a kernel containing a jmx/brx-class (register-indexed) branch
yields a degenerate CFG; the degenerate CFG still covers every
instruction (blocks flatten back to the sequence, nothing is dropped or
asserted on); and no downstream operation consults the CFG's edge
information — materialization and variant dispatch are unchanged under an
arbitrary replacement of the kernel's CFG. -/
theorem indirect_branch_degenerate (instrs : List Instr) (i : Instr)
    (hi : i ∈ instrs) (hind : i.ctrl = .indirect) :
    (buildCFG instrs).is_degenerate = true ∧
      (buildCFG instrs).bbs.flatten = instrs ∧
      ∀ (k : Kernel) (c : CFG) (g : DeviceGen) (w : Nat),
        (materializeKernel g w { k with cfg := c }).matResult =
            (materializeKernel g w k).matResult ∧
          activeStream { k with cfg := c } = activeStream k := by
  refine ⟨?_, by simpa [buildCFG] using buildBlocks_flatten instrs, ?_⟩
  · simp only [buildCFG, List.any_eq_true]
    exact ⟨i, hi, by rw [hind]⟩
  · intro k c g w
    constructor
    · cases hm : k.matResult <;> simp [materializeKernel, hm]
    · simp [activeStream]

/-- Sample register-indexed (jmx/brx-class) raw branch used by concrete
witnesses. -/
def rawBrx : RawInstr :=
  { recognized := true
    opcode := "BRX"
    hasPred := false
    predNum := 0
    isPredNeg := false
    memOp := .NONE
    isLoad := false
    isStore := false
    isExtended := false
    size := 0
    operands := []
    ctrl := .indirect }

/-- Witness for `indirect_branch_degenerate` at a concrete one-instruction
kernel with a register-indexed branch. -/
theorem indirect_branch_degenerate_witness :
    decodeOne 0 0 rawBrx ∈ [decodeOne 0 0 rawBrx] ∧
      (decodeOne 0 0 rawBrx).ctrl = .indirect ∧
      (buildCFG [decodeOne 0 0 rawBrx]).is_degenerate = true := by
  refine ⟨List.mem_singleton.mpr rfl, rfl, ?_⟩
  exact (indirect_branch_degenerate _ _ (List.mem_singleton.mpr rfl) rfl).1

/-- No call is currently open for instruction `idx`: either no call has
been started, or the open call belongs to a different (instruction, point)
pair. -/
def noOpenCallFor (l : Ledger) (idx : Nat) : Prop :=
  ∀ q : IPoint, l.openKey ≠ some (idx, q)

theorem addCallArg_noOpen (l : Ledger) (idx : Nat) (b : ArgBinding)
    (hopen : noOpenCallFor l idx) :
    addCallArg l idx b = (l, some .UsageError) := by
  by_cases hf : l.frozen = true
  · simp [addCallArg, hf]
  · simp only [Bool.not_eq_true] at hf
    cases hk : l.openKey with
    | none => simp [addCallArg, hf, hk]
    | some k =>
      have hne : ¬k.1 = idx := by
        intro he
        exact hopen k.2 (by rw [hk, ← he])
      simp [addCallArg, hf, hk, hne]

/-- C6: every `nvbit_add_call_arg_*` operation is a UsageError when no
call is currently open for that (instruction, point) pair — whether no
call is open at all or the open call belongs to a different pair — every
ledger mutation on a frozen ledger is a UsageError, in both cases the
returned ledger being the unchanged input, and materializing a kernel
freezes its ledger. -/
theorem ledger_usage_errors (l : Ledger) (idx : Nat) (b : ArgBinding)
    (name : String) (p : IPoint) (v : Nat) (rn off bi bo : Int) :
    (noOpenCallFor l idx →
        addCallArg l idx b = (l, some .UsageError) ∧
          nvbit_add_call_arg_pred_val l idx = (l, some .UsageError) ∧
          nvbit_add_call_arg_pred_reg l idx = (l, some .UsageError) ∧
          nvbit_add_call_arg_const_val32 l idx v = (l, some .UsageError) ∧
          nvbit_add_call_arg_const_val64 l idx v = (l, some .UsageError) ∧
          nvbit_add_call_arg_reg_val l idx rn = (l, some .UsageError) ∧
          nvbit_add_call_arg_launch_val32 l idx off = (l, some .UsageError) ∧
          nvbit_add_call_arg_launch_val64 l idx off = (l, some .UsageError) ∧
          nvbit_add_call_arg_cbank_val l idx bi bo =
            (l, some .UsageError)) ∧
      (l.frozen = true →
        addCallArg l idx b = (l, some .UsageError) ∧
          nvbit_insert_call l idx name p = (l, some .UsageError) ∧
          nvbit_remove_orig l idx = (l, some .UsageError) ∧
          nvbit_add_call_arg_pred_val l idx = (l, some .UsageError) ∧
          nvbit_add_call_arg_pred_reg l idx = (l, some .UsageError) ∧
          nvbit_add_call_arg_const_val32 l idx v = (l, some .UsageError) ∧
          nvbit_add_call_arg_const_val64 l idx v = (l, some .UsageError) ∧
          nvbit_add_call_arg_reg_val l idx rn = (l, some .UsageError) ∧
          nvbit_add_call_arg_launch_val32 l idx off = (l, some .UsageError) ∧
          nvbit_add_call_arg_launch_val64 l idx off = (l, some .UsageError) ∧
          nvbit_add_call_arg_cbank_val l idx bi bo =
            (l, some .UsageError)) ∧
      ∀ (g : DeviceGen) (w : Nat) (k : Kernel),
        k.matResult = none →
          ((materializeKernel g w k).ledger).frozen = true := by
  refine ⟨?_, ?_, ?_⟩
  · intro hopen
    refine ⟨?_, ?_, ?_, ?_, ?_, ?_, ?_, ?_, ?_⟩ <;>
      simp [nvbit_add_call_arg_pred_val, nvbit_add_call_arg_pred_reg,
        nvbit_add_call_arg_const_val32, nvbit_add_call_arg_const_val64,
        nvbit_add_call_arg_reg_val, nvbit_add_call_arg_launch_val32,
        nvbit_add_call_arg_launch_val64, nvbit_add_call_arg_cbank_val,
        addCallArg_noOpen l idx _ hopen]
  · intro hf
    refine ⟨?_, ?_, ?_, ?_, ?_, ?_, ?_, ?_, ?_, ?_, ?_⟩ <;>
      simp [addCallArg, nvbit_insert_call, nvbit_remove_orig,
        nvbit_add_call_arg_pred_val, nvbit_add_call_arg_pred_reg,
        nvbit_add_call_arg_const_val32, nvbit_add_call_arg_const_val64,
        nvbit_add_call_arg_reg_val, nvbit_add_call_arg_launch_val32,
        nvbit_add_call_arg_launch_val64, nvbit_add_call_arg_cbank_val, hf]
  · intro g w k hm
    simp [materializeKernel, hm]

/-- Ledger whose open call belongs to instruction 1, used by the
`ledger_usage_errors` witness to exercise the mismatched-pair case. -/
def otherOpenLedger : Ledger :=
  { calls := [(1, .IPOINT_BEFORE, ⟨"g", []⟩)]
    removed := []
    openKey := some (1, .IPOINT_BEFORE)
    frozen := false }

/-- Witness for `ledger_usage_errors`: the empty ledger has no open call
at all, `otherOpenLedger` has its open call at a different instruction —
both reject `addArg` for instruction 0 — and a frozen ledger rejects
mutation. -/
theorem ledger_usage_errors_witness :
    emptyLedger.openKey = none ∧
      addCallArg emptyLedger 0 .predVal =
        (emptyLedger, some .UsageError) ∧
      otherOpenLedger.openKey = some (1, .IPOINT_BEFORE) ∧
      nvbit_add_call_arg_pred_val otherOpenLedger 0 =
        (otherOpenLedger, some .UsageError) ∧
      ({ emptyLedger with frozen := true } : Ledger).frozen = true ∧
      nvbit_insert_call { emptyLedger with frozen := true } 0 "f"
          .IPOINT_BEFORE =
        ({ emptyLedger with frozen := true }, some .UsageError) := by
  refine ⟨rfl, ?_, rfl, ?_, rfl, ?_⟩
  · exact ((ledger_usage_errors emptyLedger 0 .predVal "f" .IPOINT_BEFORE
      0 0 0 0 0).1 (by intro q h; cases h)).1
  · exact ((ledger_usage_errors otherOpenLedger 0 .predVal "f"
      .IPOINT_BEFORE 0 0 0 0 0).1 (by intro q h; cases q <;> cases h)).2.1
  · exact ((ledger_usage_errors { emptyLedger with frozen := true } 0
      .predVal "f" .IPOINT_BEFORE 0 0 0 0 0).2.1 rfl).2.1

/-- C7: when materialization fails — an argument binding names a register
or constant bank invalid for the device generation, or total code growth
exceeds the addressable offset range — it fails with a
MaterializationError, the error is recorded for the tool, no (even
partial) instrumented stream is produced, and the kernel thereafter
dispatches only its original uninstrumented code whatever the switch
flag. -/
theorem materialize_failure_fallback (g : DeviceGen) (w : Nat) (k : Kernel)
    (hfresh : k.matResult = none)
    (hcause : ledgerBindingsValid g k.ledger = false ∨
      MAX_CODE_BYTES < (materializeStream k.ledger k.instrs).length * w) :
    materialize g w k.instrs k.ledger = .error .MaterializationError ∧
      (materializeKernel g w k).matResult =
        some (.error .MaterializationError) ∧
      (∀ s, (materializeKernel g w k).matResult ≠ some (.ok s)) ∧
      ∀ flag,
        activeStream
            (nvbit_enable_instrumented (materializeKernel g w k) flag) =
          k.instrs.map SynthInstr.orig := by
  have hmain : materialize g w k.instrs k.ledger =
      .error .MaterializationError := by
    unfold materialize
    rcases hcause with hb | hsz
    · rw [hb]
      simp
    · by_cases hb : ledgerBindingsValid g k.ledger = true
      · rw [hb, if_pos rfl, if_neg (by omega)]
      · simp only [Bool.not_eq_true] at hb
        rw [hb]
        simp
  have hrec : (materializeKernel g w k).matResult =
      some (.error .MaterializationError) := by
    simp [materializeKernel, hfresh, hmain]
  refine ⟨hmain, hrec, ?_, ?_⟩
  · intro s hcontra
    rw [hrec] at hcontra
    cases hcontra
  · intro flag
    have hinstrs : (materializeKernel g w k).instrs = k.instrs := by
      simp [materializeKernel, hfresh]
    cases flag <;>
      simp [activeStream, nvbit_enable_instrumented, hrec, hinstrs]

/-- Witness for `materialize_failure_fallback`: a ledger holding one call
whose register-value binding names register 300, which does not exist on a
255-register generation. -/
theorem materialize_failure_fallback_witness :
    (Kernel.mk [] ⟨false, []⟩
        { calls := [(0, .IPOINT_BEFORE, ⟨"probe", [.regVal 300]⟩)],
          removed := [], openKey := some (0, .IPOINT_BEFORE),
          frozen := false } none false []).matResult = none ∧
      ledgerBindingsValid ⟨255, 18⟩
          { calls := [(0, .IPOINT_BEFORE, ⟨"probe", [.regVal 300]⟩)],
            removed := [], openKey := some (0, .IPOINT_BEFORE),
            frozen := false } = false ∧
      materialize ⟨255, 18⟩ 16 []
          { calls := [(0, .IPOINT_BEFORE, ⟨"probe", [.regVal 300]⟩)],
            removed := [], openKey := some (0, .IPOINT_BEFORE),
            frozen := false } = .error .MaterializationError := by
  refine ⟨rfl, by decide, ?_⟩
  exact (materialize_failure_fallback ⟨255, 18⟩ 16
    (Kernel.mk [] ⟨false, []⟩
      { calls := [(0, .IPOINT_BEFORE, ⟨"probe", [.regVal 300]⟩)],
        removed := [], openKey := some (0, .IPOINT_BEFORE),
        frozen := false } none false [])
    rfl (.inl (by decide))).1

/-- The ordered sequence of device-function call transfers performed when
a materialized stream executes straight-line: the runtime execution order
of the injected calls. -/
def callTrace (s : List SynthInstr) : List String :=
  s.filterMap fun si =>
    match si with
    | .callTo n => some n
    | _ => none

theorem callTrace_append (s t : List SynthInstr) :
    callTrace (s ++ t) = callTrace s ++ callTrace t := by
  simp [callTrace, List.filterMap_append]

theorem callTrace_expandCall (r : InjectionRequest) :
    callTrace (expandCall r) = [r.dev_func_name] := by
  unfold expandCall
  rw [callTrace_append]
  have h1 : callTrace (r.args.map SynthInstr.marshal) = [] := by
    induction r.args with
    | nil => rfl
    | cons a rest ih =>
      simp only [List.map_cons, callTrace, List.filterMap_cons] at *
      exact ih
  rw [h1]
  rfl

theorem callTrace_expandAll (rs : List InjectionRequest) :
    callTrace (expandAll rs) = rs.map InjectionRequest.dev_func_name := by
  induction rs with
  | nil => rfl
  | cons r rest ih =>
    simp only [expandAll, List.map_cons, List.flatten_cons] at *
    rw [callTrace_append, callTrace_expandCall, ih]
    rfl

theorem callTrace_materializeInstr (l : Ledger) (i : Instr) :
    callTrace (materializeInstr l i) =
      (callsAt l i.idx .IPOINT_BEFORE).map InjectionRequest.dev_func_name ++
        (callsAt l i.idx .IPOINT_AFTER).map
          InjectionRequest.dev_func_name := by
  unfold materializeInstr
  rw [callTrace_append, callTrace_append, callTrace_expandAll,
    callTrace_expandAll]
  have hmid : callTrace
      (if l.removed.contains i.idx then [] else [.orig i]) = [] := by
    split <;> rfl
  rw [hmid, List.append_nil]

theorem callTrace_rewriteStream (m : List (Nat × Nat))
    (s : List SynthInstr) :
    callTrace (rewriteStream m s) = callTrace s := by
  induction s with
  | nil => rfl
  | cons si rest ih =>
    cases si <;>
      simpa [rewriteStream, callTrace, List.filterMap_cons] using ih

theorem materializeStream_split (l : Ledger) (as bs : List Instr)
    (i : Instr) :
    materializeStream l (as ++ i :: bs) =
      materializeStream l as ++ materializeInstr l i ++
        materializeStream l bs := by
  simp [materializeStream, List.map_append, List.flatten_append]

theorem insert_call_ok (l l' : Ledger) (idx : Nat) (n : String) (p : IPoint)
    (h : nvbit_insert_call l idx n p = (l', none)) :
    l.frozen = false ∧
      l' = { calls := l.calls ++ [(idx, p, ⟨n, []⟩)]
             removed := l.removed
             openKey := some (idx, p)
             frozen := false } := by
  by_cases hf : l.frozen = true
  · simp [nvbit_insert_call, hf] at h
  · simp only [Bool.not_eq_true] at hf
    simp only [nvbit_insert_call, hf, Bool.false_eq_true, if_false,
      Prod.mk.injEq, and_true] at h
    exact ⟨hf, h.symm⟩

/-- C3: two calls injected at the same (instruction, point) pair execute
in insertion order — in any successfully materialized stream for a kernel
containing that instruction, the call transfer of the first-inserted call
appears immediately before that of the second in the runtime call trace. -/
theorem insert_call_exec_order (l0 l1 l2 : Ledger) (idx : Nat)
    (n1 n2 : String) (p : IPoint) (i : Instr) (g : DeviceGen) (w : Nat)
    (instrs as bs : List Instr) (s : List SynthInstr)
    (hidx : i.idx = idx)
    (hsplit : instrs = as ++ i :: bs)
    (h1 : nvbit_insert_call l0 idx n1 p = (l1, none))
    (h2 : nvbit_insert_call l1 idx n2 p = (l2, none))
    (hmat : materialize g w instrs l2 = .ok s) :
    ∃ pre post, callTrace s = pre ++ [n1, n2] ++ post := by
  obtain ⟨hf0, hl1⟩ := insert_call_ok l0 l1 idx n1 p h1
  obtain ⟨hf1, hl2⟩ := insert_call_ok l1 l2 idx n2 p h2
  have hcalls : l2.calls =
      l0.calls ++ [(idx, p, ⟨n1, []⟩), (idx, p, ⟨n2, []⟩)] := by
    rw [hl2, hl1]
    simp
  have hsame : callsAt l2 idx p =
      callsAt l0 idx p ++ [⟨n1, []⟩, ⟨n2, []⟩] := by
    simp [callsAt, hcalls, List.filter_append]
  have hs : s = rewriteStream (offsetMap w l2 instrs)
      (materializeStream l2 instrs) := by
    unfold materialize at hmat
    split at hmat
    · split at hmat
      · cases hmat; rfl
      · cases hmat
    · cases hmat
  have htrace : callTrace s =
      callTrace (materializeStream l2 as) ++
        ((callsAt l2 idx .IPOINT_BEFORE).map
            InjectionRequest.dev_func_name ++
          (callsAt l2 idx .IPOINT_AFTER).map
            InjectionRequest.dev_func_name) ++
        callTrace (materializeStream l2 bs) := by
    rw [hs, callTrace_rewriteStream, hsplit, materializeStream_split,
      callTrace_append, callTrace_append, callTrace_materializeInstr,
      hidx]
  have hdiff : ∀ q : IPoint, q ≠ p → callsAt l2 idx q = callsAt l0 idx q := by
    intro q hq
    have hne : ¬p = q := fun h => hq h.symm
    simp [callsAt, hcalls, List.filter_append, hne]
  cases p with
  | IPOINT_BEFORE =>
    refine ⟨callTrace (materializeStream l2 as) ++
      (callsAt l0 idx .IPOINT_BEFORE).map InjectionRequest.dev_func_name,
      (callsAt l2 idx .IPOINT_AFTER).map InjectionRequest.dev_func_name ++
        callTrace (materializeStream l2 bs), ?_⟩
    rw [htrace, hsame]
    simp
  | IPOINT_AFTER =>
    refine ⟨callTrace (materializeStream l2 as) ++
      ((callsAt l2 idx .IPOINT_BEFORE).map InjectionRequest.dev_func_name ++
        (callsAt l0 idx .IPOINT_AFTER).map InjectionRequest.dev_func_name),
      callTrace (materializeStream l2 bs), ?_⟩
    rw [htrace, hsame]
    simp

/-- Modelled from the spec: one entry of the Context/Thread Registry's
per-(context, kernel) cache (spec sections 4.1 and 4.6): the kernel's raw
code and, once the decoder has run, the cached decode result. -/
structure CacheEntry where
  raw : List RawInstr
  decoded : Option (Except NvbitError (List Instr))

/-- Modelled from the spec: the process-wide table of cached kernels,
keyed by opaque (context, function) handle pairs. -/
abbrev Registry := List ((Nat × Nat) × CacheEntry)

/-- Look up the cache entry of a (context, function) key. -/
def lookupEntry : Registry → Nat × Nat → Option CacheEntry
  | [], _ => none
  | e :: rest, key => if e.1 = key then some e.2 else lookupEntry rest key

/-- Replace the cache entry of a key already in the table. -/
def setEntry : Registry → Nat × Nat → CacheEntry → Registry
  | [], _, _ => []
  | e :: rest, key, c =>
    if e.1 = key then (key, c) :: rest else e :: setEntry rest key c

/-- Modelled from the spec: `nvbit_get_instrs` (nvbit.h) — a query for an
unknown kernel is a RegistryError with no side effect; the first query for
a known kernel runs the decoder once and caches the result; every later
query returns the cached result (the same object) without touching the
registry. -/
def nvbit_get_instrs (w : Nat) (s : Registry) (key : Nat × Nat) :
    Except NvbitError (List Instr) × Registry :=
  match lookupEntry s key with
  | none => (.error .RegistryError, s)
  | some c =>
    match c.decoded with
    | some r => (r, s)
    | none =>
      (decode w c.raw,
        setEntry s key { c with decoded := some (decode w c.raw) })

theorem lookupEntry_setEntry (s : Registry) (key : Nat × Nat)
    (c0 c : CacheEntry) (h : lookupEntry s key = some c0) :
    lookupEntry (setEntry s key c) key = some c := by
  induction s with
  | nil => simp [lookupEntry] at h
  | cons e rest ih =>
    by_cases he : e.1 = key
    · simp [lookupEntry, setEntry, he]
    · simp only [lookupEntry, setEntry, he, if_false] at *
      exact ih h

/-- C8: decoding is deterministic — the result of a first (uncached) query
is exactly `decode` of the kernel's raw code, a pure function of it — and
results are cached: querying again after any query returns the same
result object and leaves the registry untouched. -/
theorem get_instrs_deterministic_cached (w : Nat) (s s1 : Registry)
    (key : Nat × Nat) (r : Except NvbitError (List Instr))
    (h : nvbit_get_instrs w s key = (r, s1)) :
    nvbit_get_instrs w s1 key = (r, s1) ∧
      ∀ c, lookupEntry s key = some c → c.decoded = none →
        r = decode w c.raw := by
  cases hl : lookupEntry s key with
  | none =>
    have he : nvbit_get_instrs w s key = (.error .RegistryError, s) := by
      simp [nvbit_get_instrs, hl]
    rw [he] at h
    cases h
    refine ⟨he, ?_⟩
    intro c hc
    cases hc
  | some c =>
    cases hd : c.decoded with
    | some r0 =>
      have he : nvbit_get_instrs w s key = (r0, s) := by
        simp [nvbit_get_instrs, hl, hd]
      rw [he] at h
      cases h
      refine ⟨he, ?_⟩
      intro c1 hc1 hdec1
      cases hc1
      rw [hd] at hdec1
      cases hdec1
    | none =>
      have he : nvbit_get_instrs w s key =
          (decode w c.raw,
            setEntry s key { c with decoded := some (decode w c.raw) }) := by
        simp [nvbit_get_instrs, hl, hd]
      rw [he] at h
      cases h
      refine ⟨?_, ?_⟩
      · have hl2 : lookupEntry
            (setEntry s key { c with decoded := some (decode w c.raw) })
            key = some { c with decoded := some (decode w c.raw) } :=
          lookupEntry_setEntry s key c _ hl
        simp [nvbit_get_instrs, hl2]
      · intro c1 hc1 _
        cases hc1
        rfl

/-- Witness for `get_instrs_deterministic_cached`: a one-kernel registry
queried for the first time. -/
theorem get_instrs_deterministic_cached_witness :
    nvbit_get_instrs 16 [((0, 0), ⟨sampleRaws, none⟩)] (0, 0) =
      (.ok sampleInstrs,
        [((0, 0), ⟨sampleRaws, some (.ok sampleInstrs)⟩)]) ∧
      nvbit_get_instrs 16
          [((0, 0), ⟨sampleRaws, some (.ok sampleInstrs)⟩)] (0, 0) =
        (.ok sampleInstrs,
          [((0, 0), ⟨sampleRaws, some (.ok sampleInstrs)⟩)]) := by
  refine ⟨rfl, ?_⟩
  exact (get_instrs_deterministic_cached 16 [((0, 0), ⟨sampleRaws, none⟩)]
    [((0, 0), ⟨sampleRaws, some (.ok sampleInstrs)⟩)] (0, 0)
    (.ok sampleInstrs) rfl).1

/-- Witness for `insert_call_exec_order`: two marker calls injected before
one instruction; the materialized kernel's runtime call trace runs them in
insertion order. -/
theorem insert_call_exec_order_witness :
    (nvbit_insert_call emptyLedger 0 "m1" .IPOINT_BEFORE).2 = none ∧
      ∃ pre post,
        callTrace [SynthInstr.callTo "m1", .restore, .callTo "m2",
            .restore, .orig (decodeOne 0 0 rawAdd)] =
          pre ++ ["m1", "m2"] ++ post := by
  refine ⟨rfl, ?_⟩
  exact insert_call_exec_order emptyLedger
    (nvbit_insert_call emptyLedger 0 "m1" .IPOINT_BEFORE).1
    (nvbit_insert_call
      (nvbit_insert_call emptyLedger 0 "m1" .IPOINT_BEFORE).1 0 "m2"
      .IPOINT_BEFORE).1
    0 "m1" "m2" .IPOINT_BEFORE (decodeOne 0 0 rawAdd) ⟨255, 18⟩ 16
    [decodeOne 0 0 rawAdd] [] []
    [SynthInstr.callTo "m1", .restore, .callTo "m2", .restore,
      .orig (decodeOne 0 0 rawAdd)]
    rfl rfl rfl rfl rfl

/-- Per-thread device state visible to injected code: the thread's
register file and predicate registers (nvbit.h device-level APIs). -/
structure DeviceState where
  regs : Nat → Int
  preds : Nat → Bool

/-- Write one register of a device state. -/
def setReg (s : DeviceState) (r : Nat) (v : Int) : DeviceState :=
  { s with regs := fun x => if x = r then v else s.regs x }

/-- One operation the injected callee performs: `scratch` is any
computation on its live (caller-saved) state — clobbering registers and
predicates at will — and `writeReg` is the explicit device primitive
`nvbit_write_reg` (nvbit.h), whose writes are permanent into application
state. -/
inductive DevOp
  | scratch (g : DeviceState → DeviceState)
  | writeReg (r : Nat) (v : Int)

/-- Modelled from the spec: the save/restore trampoline around an injected
call (spec section 4.4).  `live` is the state the injected code runs on;
`saved` is the save area restored into the application when the call
returns.  `nvbit_write_reg` writes through to the save area, which is how
its writes survive the restore. -/
structure InjFrame where
  live : DeviceState
  saved : DeviceState

/-- Effect of one callee operation on the trampoline frame: scratch work
touches only the live state; an explicit register write updates both the
live state and the save area. -/
def stepOp (f : InjFrame) : DevOp → InjFrame
  | .scratch g => { f with live := g f.live }
  | .writeReg r v =>
    { live := setReg f.live r v, saved := setReg f.saved r v }

/-- Run the callee's operations over the frame. -/
def runOps (f : InjFrame) : List DevOp → InjFrame
  | [] => f
  | op :: rest => runOps (stepOp f op) rest

/-- Modelled from the spec: the application-visible effect of one injected
call site — save the caller state, run the callee, restore from the save
area (spec section 4.4: restore-state instructions make the injected code
invisible to the original program's register/predicate state). -/
def execCallSite (ops : List DevOp) (s : DeviceState) : DeviceState :=
  (runOps { live := s, saved := s } ops).saved

/-- Registers explicitly written via `nvbit_write_reg` by the callee. -/
def writtenRegs : List DevOp → List Nat
  | [] => []
  | .scratch _ :: rest => writtenRegs rest
  | .writeReg r _ :: rest => r :: writtenRegs rest

/-- The value of the last explicit write to register `r`, if any. -/
def lastWriteVal : List DevOp → Nat → Option Int
  | [], _ => none
  | .scratch _ :: rest, r => lastWriteVal rest r
  | .writeReg r1 v :: rest, r =>
    match lastWriteVal rest r with
    | some v1 => some v1
    | none => if r1 = r then some v else none

theorem runOps_saved_preds (ops : List DevOp) :
    ∀ f : InjFrame, (runOps f ops).saved.preds = f.saved.preds := by
  induction ops with
  | nil => intro f; rfl
  | cons op rest ih =>
    intro f
    cases op with
    | scratch g => simpa [runOps, stepOp] using ih _
    | writeReg r v =>
      rw [runOps, ih]
      rfl

theorem runOps_saved_notWritten (ops : List DevOp) (r : Nat)
    (hr : r ∉ writtenRegs ops) :
    ∀ f : InjFrame, (runOps f ops).saved.regs r = f.saved.regs r := by
  induction ops with
  | nil => intro f; rfl
  | cons op rest ih =>
    intro f
    cases op with
    | scratch g =>
      simp only [writtenRegs] at hr
      simpa [runOps, stepOp] using ih hr _
    | writeReg r1 v =>
      simp only [writtenRegs, List.mem_cons, not_or] at hr
      rw [runOps, ih hr.2]
      simp [stepOp, setReg, fun h : r = r1 => hr.1 h]

theorem lastWriteVal_none_notWritten (ops : List DevOp) (r : Nat)
    (h : lastWriteVal ops r = none) : r ∉ writtenRegs ops := by
  induction ops with
  | nil => simp [writtenRegs]
  | cons op rest ih =>
    cases op with
    | scratch g =>
      simp only [lastWriteVal] at h
      simpa [writtenRegs] using ih h
    | writeReg r1 v =>
      simp only [lastWriteVal] at h
      cases hrest : lastWriteVal rest r with
      | some v1 => rw [hrest] at h; cases h
      | none =>
        rw [hrest] at h
        by_cases he : r1 = r
        · rw [if_pos he] at h; cases h
        · simp only [writtenRegs, List.mem_cons, not_or]
          exact ⟨fun hc => he hc.symm, ih hrest⟩

theorem runOps_saved_lastWrite (ops : List DevOp) (r : Nat) (v : Int)
    (h : lastWriteVal ops r = some v) :
    ∀ f : InjFrame, (runOps f ops).saved.regs r = v := by
  induction ops with
  | nil => intro f; simp [lastWriteVal] at h
  | cons op rest ih =>
    intro f
    cases op with
    | scratch g =>
      simp only [lastWriteVal] at h
      simpa [runOps, stepOp] using ih h _
    | writeReg r1 v1 =>
      simp only [lastWriteVal] at h
      cases hrest : lastWriteVal rest r with
      | some v2 =>
        rw [hrest] at h
        cases h
        exact ih hrest _
      | none =>
        rw [hrest] at h
        by_cases he : r1 = r
        · rw [if_pos he] at h
          cases h
          rw [runOps,
            runOps_saved_notWritten rest r
              (lastWriteVal_none_notWritten rest r hrest)]
          simp [stepOp, setReg, he]
        · rw [if_neg he] at h
          cases h

/-- C9: injected code is invisible to the original program — after an
injected call site runs an arbitrary callee (any clobbering scratch work
interleaved with explicit `nvbit_write_reg` writes), every register not
explicitly written holds exactly its pre-call value and the predicate
state is exactly the pre-call predicate state; and the explicit writes are
permanent: a register last written with value `v` holds `v` in application
state. -/
theorem injected_code_invisible (ops : List DevOp) (s : DeviceState)
    (r : Nat) :
    (r ∉ writtenRegs ops → (execCallSite ops s).regs r = s.regs r) ∧
      (execCallSite ops s).preds = s.preds ∧
      ∀ v, lastWriteVal ops r = some v → (execCallSite ops s).regs r = v := by
  refine ⟨?_, ?_, ?_⟩
  · intro hr
    exact runOps_saved_notWritten ops r hr _
  · exact runOps_saved_preds ops _
  · intro v hv
    exact runOps_saved_lastWrite ops r v hv _

/-- Witness for `injected_code_invisible`: a callee that clobbers register
0 as scratch work and explicitly writes 42 into register 5 leaves
register 0 untouched in application state and makes register 5 hold 42. -/
theorem injected_code_invisible_witness :
    ((0 : Nat) ∉
        writtenRegs [.scratch (fun d => setReg d 0 99), .writeReg 5 42]) ∧
      lastWriteVal [.scratch (fun d => setReg d 0 99), .writeReg 5 42] 5 =
        some 42 ∧
      (execCallSite [.scratch (fun d => setReg d 0 99), .writeReg 5 42]
          ⟨fun _ => 7, fun _ => false⟩).regs 0 =
        (⟨fun _ => 7, fun _ => false⟩ : DeviceState).regs 0 ∧
      (execCallSite [.scratch (fun d => setReg d 0 99), .writeReg 5 42]
          ⟨fun _ => 7, fun _ => false⟩).regs 5 = 42 := by
  refine ⟨by decide, by decide, ?_, ?_⟩
  · exact (injected_code_invisible
      [.scratch (fun d => setReg d 0 99), .writeReg 5 42]
      ⟨fun _ => 7, fun _ => false⟩ 0).1 (by decide)
  · exact (injected_code_invisible
      [.scratch (fun d => setReg d 0 99), .writeReg 5 42]
      ⟨fun _ => 7, fun _ => false⟩ 5).2.2 42 (by decide)

/-- Outcome of running a host-side check macro: the stdout lines it
printed, whether it flushed stdout, and the process exit status it
terminated with (`none` means control returns to the caller). -/
structure ProcEffect where
  stdoutLines : List String
  flushed : Bool
  exitStatus : Option Nat
  deriving DecidableEq, Repr

/-- The diagnostic line the `_assert` macro prints on failure
(macros.h lines 38-47). -/
def assertDiagnostic (file : String) (line : Nat) (func cond : String) :
    String :=
  "ASSERT FAIL: " ++ file ++ ":" ++ toString line ++ ":" ++ func ++
    ": FAIL !(" ++ cond ++ ")"

/-- Shallow embedding of the `_assert` macro (macros.h): when the
condition holds it does nothing and control continues; otherwise it prints
the diagnostic naming file, line and function, flushes stdout, and calls
`_exit(1)`, never returning. -/
def assertCheck (condition : Bool) (file : String) (line : Nat)
    (func cond : String) : ProcEffect :=
  if condition then { stdoutLines := [], flushed := false, exitStatus := none }
  else
    { stdoutLines := [assertDiagnostic file line func cond]
      flushed := true
      exitStatus := some 1 }

/-- The diagnostic line the `_assert_msg` macro prints on failure
(macros.h lines 49-58). -/
def assertMsgDiagnostic (file : String) (line : Nat)
    (func cond msg : String) : String :=
  "ASSERT FAIL: " ++ file ++ ":" ++ toString line ++ ":" ++ func ++
    ": FAIL !(" ++ cond ++ ") MSG: " ++ msg

/-- Shallow embedding of the `_assert_msg` macro (macros.h). -/
def assertMsgCheck (condition : Bool) (file : String) (line : Nat)
    (func cond msg : String) : ProcEffect :=
  if condition then { stdoutLines := [], flushed := false, exitStatus := none }
  else
    { stdoutLines := [assertMsgDiagnostic file line func cond msg]
      flushed := true
      exitStatus := some 1 }

/-- C10: `_assert` (and `_assert_msg`) is check-or-die.  On a true
condition it prints nothing, flushes nothing, and execution continues.
On a false condition it prints one diagnostic line containing the file,
the line number, and the function name, flushes stdout, and terminates the
process with exit status 1, never returning to the caller. -/
theorem assert_check_or_die (file : String) (line : Nat)
    (func cond msg : String) :
    assertCheck true file line func cond =
        { stdoutLines := [], flushed := false, exitStatus := none } ∧
      assertMsgCheck true file line func cond msg =
        { stdoutLines := [], flushed := false, exitStatus := none } ∧
      (assertCheck false file line func cond).exitStatus = some 1 ∧
      (assertCheck false file line func cond).flushed = true ∧
      (assertCheck false file line func cond).stdoutLines =
        [assertDiagnostic file line func cond] ∧
      file.data <:+: (assertDiagnostic file line func cond).data ∧
      (toString line).data <:+: (assertDiagnostic file line func cond).data ∧
      func.data <:+: (assertDiagnostic file line func cond).data ∧
      (assertMsgCheck false file line func cond msg).exitStatus = some 1 ∧
      (assertMsgCheck false file line func cond msg).flushed = true ∧
      msg.data <:+:
        (assertMsgDiagnostic file line func cond msg).data := by
  refine ⟨rfl, rfl, rfl, rfl, rfl, ?_, ?_, ?_, rfl, rfl, ?_⟩
  · exact ⟨"ASSERT FAIL: ".data,
      (":" ++ toString line ++ ":" ++ func ++ ": FAIL !(" ++ cond ++
        ")").data,
      by simp [assertDiagnostic, String.data_append]⟩
  · exact ⟨("ASSERT FAIL: " ++ file ++ ":").data,
      (":" ++ func ++ ": FAIL !(" ++ cond ++ ")").data,
      by simp [assertDiagnostic, String.data_append]⟩
  · exact ⟨("ASSERT FAIL: " ++ file ++ ":" ++ toString line ++ ":").data,
      (": FAIL !(" ++ cond ++ ")").data,
      by simp [assertDiagnostic, String.data_append]⟩
  · exact ⟨("ASSERT FAIL: " ++ file ++ ":" ++ toString line ++ ":" ++
      func ++ ": FAIL !(" ++ cond ++ ") MSG: ").data, [],
      by simp [assertMsgDiagnostic, String.data_append]⟩

/-- Witness for `instrs_cfg_agree` at a concrete two-instruction kernel. -/
theorem instrs_cfg_agree_witness :
    (0 : Nat) < 16 ∧ decode 16 sampleRaws = .ok sampleInstrs ∧
      ((buildCFG sampleInstrs).bbs.map List.length).sum = sampleInstrs.length ∧
      sampleInstrs.Pairwise (fun a b => a.offset < b.offset) := by
  have h := instrs_cfg_agree 16 sampleRaws sampleInstrs (by decide) rfl
  exact ⟨by decide, rfl, h.1, h.2.2⟩

end Nvbit
